import Mathlib

/-!
Shallow embedding of the ansatz-builder repository (custom_ansatz.py,
pulse_ansatz.py, heisenberg_model.py) and proofs about it.

Modelling conventions:
* A qiskit `Parameter` is identified by a fresh uid (object identity) plus its
  display name; equality of parameters is object equality, as in qiskit.
* Each builder's `_params` list is a `BuilderState`.
* Python `range(start, stop, step)` is `pyRangeUp` / `pyRangeDown`.
* Appending a gate whose qubit index is out of range raises in qiskit
  (CircuitError); circuits are therefore built as a gate list followed by a
  bounds validation producing `Except`.  The even-qubit-count check of
  `RVB.circuit` / `HVAnsatz.circuit` runs before any gate is laid out, as in
  the source.
-/

deriving instance DecidableEq for Except

/-- A qiskit `Parameter`: a named symbolic placeholder.  `uid` models object
identity (qiskit compares parameters by uuid, not by name). -/
structure Parameter where
  uid : Nat
  name : String
deriving DecidableEq

/-- The `_params` list owned by one builder instance. -/
structure BuilderState where
  params : List Parameter
deriving DecidableEq

/-- `new_param(self, paramstr)`: create `Parameter(paramstr + str(len(self._params)))`
and append it to `self._params`.  Shared by `RVB.new_param`, `HVAnsatz.new_param`
and `AnsatzBuilder.new_param`, whose bodies are identical (they differ only in
the default argument, supplied at call sites below). -/
def new_param (paramstr : String) (s : BuilderState) : Parameter × BuilderState :=
  let p : Parameter := ⟨s.params.length, paramstr ++ Nat.repr s.params.length⟩
  (p, ⟨s.params ++ [p]⟩)

/-- Python `range(start, stop, step)` for a positive `step`. -/
def pyRangeUp (start stop step : Nat) : List Nat :=
  (List.range ((stop - start + step - 1) / step)).map (fun k => start + k * step)

/-- Python `range(start, stop, -step)` for a positive `step`. -/
def pyRangeDown (start stop step : Nat) : List Nat :=
  (List.range ((start - stop + step - 1) / step)).map (fun k => start - k * step)

/-- Thread a state through a list, collecting the outputs (the shape of a
Python `for` loop whose body both appends gates and allocates parameters). -/
def stateList {α β σ : Type} (f : α → σ → β × σ) : List α → σ → List β × σ
  | [], s => ([], s)
  | a :: as, s =>
    let (b, s1) := f a s
    let (bs, s2) := stateList f as s1
    (b :: bs, s2)

/-! ## custom_ansatz.py -/

/-- The instructions of the two-qubit sub-circuit built by `RVB.add_eSWAP`.
`rzNegHalf p q` models `rz(- p / 2, q)` (a rotation by the expression `-p/2`,
whose unique parameter is `p`). -/
inductive ESwapInst
  | cnot (control target : Nat)
  | crx (p : Parameter) (control target : Nat)
  | x (q : Nat)
  | rzNegHalf (p : Parameter) (q : Nat)
deriving DecidableEq

/-- Body of the circuit named "eSWAP" built by `RVB.add_eSWAP`:
cnot(1,0); crx(p1, 0, 1); x(0); rz(-p2/2, 0); cnot(1,0). -/
def eSWAPBody (p1 p2 : Parameter) : List ESwapInst :=
  [.cnot 1 0, .crx p1 0 1, .x 0, .rzNegHalf p2 0, .cnot 1 0]

/-- Gates appearing in the circuits of custom_ansatz.py.  `eswap p1 p2 a b` is
the converted gate `add_eSWAP()` (whose definition is `eSWAPBody p1 p2`)
appended at qubits `[a, b]`. -/
inductive CGate
  | x (q : Nat)
  | h (q : Nat)
  | cx (control target : Nat)
  | eswap (p1 p2 : Parameter) (a b : Nat)
  | rzz (p : Parameter) (a b : Nat)
  | ryy (p : Parameter) (a b : Nat)
  | rxx (p : Parameter) (a b : Nat)
deriving DecidableEq

/-- The qubits a gate acts on. -/
def CGate.qubits : CGate → List Nat
  | .x q => [q]
  | .h q => [q]
  | .cx c t => [c, t]
  | .eswap _ _ a b => [a, b]
  | .rzz _ a b => [a, b]
  | .ryy _ a b => [a, b]
  | .rxx _ a b => [a, b]

/-- The parameters a gate carries. -/
def CGate.params : CGate → List Parameter
  | .x _ => []
  | .h _ => []
  | .cx _ _ => []
  | .eswap p1 p2 _ _ => [p1, p2]
  | .rzz p _ _ => [p]
  | .ryy p _ _ => [p]
  | .rxx p _ _ => [p]

/-- Is the gate an eSWAP block? -/
def CGate.isESwap : CGate → Bool
  | .eswap .. => true
  | _ => false

/-- Is the gate a Hadamard? -/
def CGate.isH : CGate → Bool
  | .h _ => true
  | _ => false

/-- Is the gate a CNOT? -/
def CGate.isCx : CGate → Bool
  | .cx _ _ => true
  | _ => false

/-- A finished circuit: a fixed qubit count and the ordered gate list. -/
structure Circuit where
  numQubits : Nat
  gates : List CGate
deriving DecidableEq

/-- qiskit validates qubit indices on every append; we validate the laid-out
gate list against the circuit's qubit count. -/
def validateCGates (n : Nat) (gs : List CGate) : Except String Circuit :=
  if gs.all (fun g => g.qubits.all (· < n)) then .ok ⟨n, gs⟩
  else .error "CircuitError: qubit index out of range"

namespace RVB

/-- `RVB.add_eSWAP`: allocates two fresh parameters (default paramstr 'phi'),
builds the two-qubit circuit `eSWAPBody p1 p2` and returns it as a gate. -/
def add_eSWAP (s : BuilderState) : (Parameter × Parameter) × BuilderState :=
  let (p1, s1) := new_param "phi" s
  let (p2, s2) := new_param "phi" s1
  ((p1, p2), s2)

/-- `for i in range(0,n): ansatz.x(i)` -/
def xInit (n : Nat) : List CGate :=
  (pyRangeUp 0 n 1).map CGate.x

/-- `for j in range(0,n): if j % 2 == 0: ansatz.h(j); ansatz.cx(j, j+1)` -/
def bell (n : Nat) : List CGate :=
  (pyRangeUp 0 n 1).flatMap (fun j =>
    if j % 2 = 0 then [CGate.h j, CGate.cx j (j + 1)] else [])

/-- `for l in range(n-1, 0, -2)`: append `add_eSWAP()` at `[l, l+1]` when
`l < n-1`, else at `[l, 0]`. -/
def passDown (n : Nat) (s : BuilderState) : List CGate × BuilderState :=
  stateList (fun l s =>
    let ((p1, p2), s1) := add_eSWAP s
    (if l < n - 1 then CGate.eswap p1 p2 l (l + 1) else CGate.eswap p1 p2 l 0, s1))
    (pyRangeDown (n - 1) 0 2) s

/-- `for l in range(0, n-1, 2)`: append `add_eSWAP()` at `[l, l+1]`. -/
def passUp (n : Nat) (s : BuilderState) : List CGate × BuilderState :=
  stateList (fun l s =>
    let ((p1, p2), s1) := add_eSWAP s
    (CGate.eswap p1 p2 l (l + 1), s1))
    (pyRangeUp 0 (n - 1) 2) s

/-- `for k in range(self._reps)`: one descending pass then one ascending pass. -/
def repLoop (n reps : Nat) (s : BuilderState) : List CGate × BuilderState :=
  let (gss, s1) := stateList (fun _ s =>
    let (g1, s1) := passDown n s
    let (g2, s2) := passUp n s1
    (g1 ++ g2, s2)) (pyRangeUp 0 reps 1) s
  (gss.flatten, s1)

/-- `RVB.circuit()` for a builder constructed with `num_qubits = n`,
`reps = reps` and a fresh `_params` list.  Returns the circuit together with
the builder's final `_params` list. -/
def circuit (n reps : Nat) : Except String (Circuit × BuilderState) :=
  if n % 2 ≠ 0 then .error "The number of qubits should be even!"
  else
    let (loopGates, s1) := repLoop n reps ⟨[]⟩
    (validateCGates n (xInit n ++ bell n ++ loopGates)).map (fun c => (c, s1))

end RVB

namespace HVAnsatz

/-- `for i in range(0,n): ansatz.x(i)` -/
def xInit (n : Nat) : List CGate :=
  (pyRangeUp 0 n 1).map CGate.x

/-- The Bell-pair initialization loop `for j in range(0,n)`.  Its guard reads
`i % 2 == 0`, where `i` is the loop variable of the preceding qubit
initialization loop, left at its final value `n - 1` (for `n = 0` that loop
never runs, but then this loop is empty as well, so the guard is never read). -/
def bell (n : Nat) : List CGate :=
  (pyRangeUp 0 n 1).flatMap (fun j =>
    if (n - 1) % 2 = 0 then [CGate.h j, CGate.cx j (j + 1)] else [])

/-- Odd layer: `for i in range(n-1, 0, -2)`, three rotations on `(i, i+1)`
when `i < n-1`, else on `(i, 0)`, one fresh 'phi' parameter per rotation. -/
def oddLayer (n : Nat) (s : BuilderState) : List CGate × BuilderState :=
  let (gss, s1) := stateList (fun i s =>
    let (p1, s1) := new_param "phi" s
    let (p2, s2) := new_param "phi" s1
    let (p3, s3) := new_param "phi" s2
    (if i < n - 1 then
      [CGate.rzz p1 i (i + 1), CGate.ryy p2 i (i + 1), CGate.rxx p3 i (i + 1)]
    else
      [CGate.rzz p1 i 0, CGate.ryy p2 i 0, CGate.rxx p3 i 0], s3))
    (pyRangeDown (n - 1) 0 2) s
  (gss.flatten, s1)

/-- Even layer: `for i in range(0, n, 2)`, three rotations on `(i, i+1)`,
one fresh 'gamma' parameter per rotation. -/
def evenLayer (n : Nat) (s : BuilderState) : List CGate × BuilderState :=
  let (gss, s1) := stateList (fun i s =>
    let (p1, s1) := new_param "gamma" s
    let (p2, s2) := new_param "gamma" s1
    let (p3, s3) := new_param "gamma" s2
    ([CGate.rzz p1 i (i + 1), CGate.ryy p2 i (i + 1), CGate.rxx p3 i (i + 1)], s3))
    (pyRangeUp 0 n 2) s
  (gss.flatten, s1)

/-- `for j in range(self._reps)`: one odd layer then one even layer. -/
def repLoop (n reps : Nat) (s : BuilderState) : List CGate × BuilderState :=
  let (gss, s1) := stateList (fun _ s =>
    let (g1, s1) := oddLayer n s
    let (g2, s2) := evenLayer n s1
    (g1 ++ g2, s2)) (pyRangeUp 0 reps 1) s
  (gss.flatten, s1)

/-- `HVAnsatz.circuit()` for a builder constructed with `num_qubits = n`,
`reps = reps` and a fresh `_params` list. -/
def circuit (n reps : Nat) : Except String (Circuit × BuilderState) :=
  if n % 2 ≠ 0 then .error "The number of qubits should be even!"
  else
    let (loopGates, s1) := repLoop n reps ⟨[]⟩
    (validateCGates n (xInit n ++ bell n ++ loopGates)).map (fun c => (c, s1))

end HVAnsatz

/-! ## pulse_ansatz.py -/

/-- Gates appearing in the circuits of pulse_ansatz.py.  `cr duration amp a b`
is `Gate("cr", 2, params=[duration, amp])` appended at `(a, b)`. -/
inductive PGate
  | rx (p : Parameter) (q : Nat)
  | rz (p : Parameter) (q : Nat)
  | cr (duration amp : Parameter) (a b : Nat)
deriving DecidableEq

/-- The qubits a pulse-ansatz gate acts on. -/
def PGate.qubits : PGate → List Nat
  | .rx _ q => [q]
  | .rz _ q => [q]
  | .cr _ _ a b => [a, b]

/-- Is the gate a cross-resonance gate? -/
def PGate.isCr : PGate → Bool
  | .cr .. => true
  | _ => false

/-- A gate parameter as stored in `inst.operation.params`: either an already
concrete number or a symbolic `Parameter` (for which `float(...)` raises
TypeError). -/
inductive PValue
  | num (x : ℚ)
  | sym (p : Parameter)
deriving DecidableEq

/-- One wrapper-config value: (wrapper-function tag, coefficients, label). -/
abbrev WrapperEntry : Type := String × (ℚ × ℚ × ℚ × ℚ) × String

/-- The builder's `_wrapper_config` dictionary, insertion ordered. -/
abbrev WrapperConfig : Type := List (Nat × WrapperEntry)

set_option synthInstance.maxSize 512 in
instance : DecidableEq (Nat × WrapperEntry) := by
  infer_instance

/-- Python `dict` assignment `cfg[k] = v`: replace in place if the key exists,
otherwise append. -/
def dictSet (cfg : WrapperConfig) (k : Nat) (v : WrapperEntry) : WrapperConfig :=
  if cfg.any (fun kv => kv.1 = k) then
    cfg.map (fun kv => if kv.1 = k then (k, v) else kv)
  else cfg ++ [(k, v)]

/-- Python `dict` lookup. -/
def dictGet (cfg : WrapperConfig) (k : Nat) : Option WrapperEntry :=
  (cfg.find? (fun kv => kv.1 = k)).map (fun kv => kv.2)

/-- The wrapper-config value recorded for a symbolic amplitude:
`("SinWrapper", (1, 1, 0, 0), f"amp[{name}]")`. -/
def SinWrapperEntry (p : Parameter) : WrapperEntry :=
  ("SinWrapper", (1, 1, 0, 0), "amp[" ++ p.name ++ "]")

/-- The wrapper-config value recorded for a symbolic cr duration:
`("SinDurationWrapper", (max/2, 1, max/2 + 4*64, 160), f"dur[{name}]")`. -/
def SinDurationWrapperEntry (maxDuration : ℚ) (p : Parameter) : WrapperEntry :=
  ("SinDurationWrapper",
   (maxDuration / 2, 1, maxDuration / 2 + 4 * 64, 160),
   "dur[" ++ p.name ++ "]")

namespace AnsatzBuilder

/-- `AnsatzBuilder.add_rx`: allocate a 'phi' parameter and append `rx(param, qubit)`. -/
def add_rx (qubit : Nat) (s : BuilderState) : PGate × BuilderState :=
  let (p, s1) := new_param "phi" s
  (PGate.rx p qubit, s1)

/-- `AnsatzBuilder.add_cr` with the default `duration=None`: allocate a 't'
duration parameter and a 'phi' amplitude parameter and append the "cr" gate. -/
def add_cr (qubits : Nat × Nat) (s : BuilderState) : PGate × BuilderState :=
  let (t, s1) := new_param "t" s
  let (p, s2) := new_param "phi" s1
  (PGate.cr t p qubits.1 qubits.2, s2)

/-- The loop of `AnsatzBuilder._param_idx`: first index of `param` in
`circuit.parameters`, scanning with `enumerate`. -/
def paramIdxLoop (param : Parameter) : List Parameter → Nat → Option Nat
  | [], _ => none
  | q :: rest, idx => if q = param then some idx else paramIdxLoop param rest (idx + 1)

/-- `AnsatzBuilder._param_idx(circuit, param)`: the index of `param` in the
circuit's parameter list `circParams`, or `ValueError` if it is absent. -/
def _param_idx (circParams : List Parameter) (param : Parameter) : Except String Nat :=
  match paramIdxLoop param circParams 0 with
  | some idx => .ok idx
  | none => .error ("ValueError: Parameter " ++ param.name ++ " not found.")

/-- `AnsatzBuilder.add_rx_schedule`, restricted to its parameter-wrapper
bookkeeping (the Drag-pulse schedule it also builds and attaches lives in the
external SDK and carries no wrapper-config state).  `params` is
`inst.operation.params`, `circParams` the circuit's parameter list at call
time, `cfg` the builder's `_wrapper_config`. -/
def add_rx_schedule (params : List PValue) (circParams : List Parameter)
    (cfg : WrapperConfig) : Except String WrapperConfig :=
  match params.head? with
  | none => .error "IndexError: list index out of range"
  | some (PValue.num _) => .ok cfg
  | some (PValue.sym p) =>
    match _param_idx circParams p with
    | .error e => .error e
    | .ok idx => .ok (dictSet cfg idx (SinWrapperEntry p))

/-- `AnsatzBuilder.add_cr_schedule`, restricted to its parameter-wrapper
bookkeeping: first the duration `params[0]`, then the amplitude `params[1]`,
each recorded only when symbolic.  `maxDuration` is the builder's
`_max_duration` (default 800). -/
def add_cr_schedule (maxDuration : ℚ) (params : List PValue)
    (circParams : List Parameter) (cfg : WrapperConfig) : Except String WrapperConfig :=
  let step1 : Except String WrapperConfig :=
    match params[0]? with
    | none => .error "IndexError: list index out of range"
    | some (PValue.num _) => .ok cfg
    | some (PValue.sym p) =>
      match _param_idx circParams p with
      | .error e => .error e
      | .ok idx => .ok (dictSet cfg idx (SinDurationWrapperEntry maxDuration p))
  match step1 with
  | .error e => .error e
  | .ok cfg1 =>
    match params[1]? with
    | none => .error "IndexError: list index out of range"
    | some (PValue.num _) => .ok cfg1
    | some (PValue.sym p) =>
      match _param_idx circParams p with
      | .error e => .error e
      | .ok idx => .ok (dictSet cfg1 idx (SinWrapperEntry p))

end AnsatzBuilder

/-- The `entanglement` argument of `PulseAnsatz`: either a string tag (only
"interleaved" is recognized) or an explicit list of qubit pairs. -/
inductive Entanglement
  | tag (s : String)
  | pairs (l : List (Nat × Nat))
deriving DecidableEq

namespace CRAnsatz

/-- The per-qubit rotation loop of `CRAnsatz._layer`: `add_rx` on every qubit,
followed by `rz(new_param('phi'), qubit)` when `add_rz` is set. -/
def rxSection (n : Nat) (addRz : Bool) (s : BuilderState) : List PGate × BuilderState :=
  let (gss, s1) := stateList (fun q s =>
    let (g, s1) := AnsatzBuilder.add_rx q s
    if addRz then
      let (p, s2) := new_param "phi" s1
      ([g, PGate.rz p q], s2)
    else ([g], s1)) (pyRangeUp 0 n 1) s
  (gss.flatten, s1)

/-- The two interleaved cross-resonance passes of `CRAnsatz._layer`:
`for qubit in range(0, n, 2)` then `for qubit in range(1, n-1, 2)`, each
appending `add_cr` on `(qubit, qubit+1)`. -/
def interleavedSection (n : Nat) (s : BuilderState) : List PGate × BuilderState :=
  let (g1, s1) := stateList (fun q s => AnsatzBuilder.add_cr (q, q + 1) s)
    (pyRangeUp 0 n 2) s
  let (g2, s2) := stateList (fun q s => AnsatzBuilder.add_cr (q, q + 1) s)
    (pyRangeUp 1 (n - 1) 2) s1
  (g1 ++ g2, s2)

/-- The explicit-pairs pass of `CRAnsatz._layer`: `for pair in entanglement`. -/
def pairsSection (l : List (Nat × Nat)) (s : BuilderState) : List PGate × BuilderState :=
  stateList (fun pr s => AnsatzBuilder.add_cr pr s) l s

/-- The gates laid out by `CRAnsatz._layer` before qiskit's per-append index
validation: the rotation loop, then the interleaved passes when the
entanglement equals the string "interleaved", then the explicit pass when the
entanglement is a list (the two guards are mutually exclusive in the source,
since no value is both a string and a list). -/
def layerGates (n : Nat) (ent : Entanglement) (addRz : Bool) (s : BuilderState) :
    List PGate × BuilderState :=
  let (g0, s0) := rxSection n addRz s
  let (g1, s1) :=
    if ent = Entanglement.tag "interleaved" then interleavedSection n s0 else ([], s0)
  match ent with
  | .pairs l =>
    let (g2, s2) := pairsSection l s1
    (g0 ++ g1 ++ g2, s2)
  | .tag _ => (g0 ++ g1, s1)

/-- `CRAnsatz._layer` for a `CRAnsatz` with `num_qubits = n`, the given
entanglement and `add_rz` flag, and a builder whose `_params` list is `s`:
the layer circuit's gates, or the qiskit index-validation error. -/
def _layer (n : Nat) (ent : Entanglement) (addRz : Bool) (s : BuilderState) :
    Except String (List PGate × BuilderState) :=
  let (g, s1) := layerGates n ent addRz s
  if g.all (fun gate => gate.qubits.all (· < n)) then .ok (g, s1)
  else .error "CircuitError: qubit index out of range"

end CRAnsatz

/-! ## heisenberg_model.py -/

/-- The part of an SDK `Lattice` that `HeisenbergModel.second_q_ops` reads:
`num_nodes` and `weighted_edge_list`.  Edge weights are kept abstract in `α`. -/
structure LatticeGraph (α : Type) where
  numNodes : Nat
  weightedEdgeList : List (Nat × Nat × α)

/-- The data of the `SpinOp` built by `second_q_ops`: the label/coefficient
list `ham` (spin 1/2) and the register length. -/
structure SpinOpData (α : Type) where
  ham : List (String × α)
  registerLength : Nat

namespace HeisenbergModel

/-- `HeisenbergModel.second_q_ops`: walk the weighted edge list, appending one
`X_{index}` term for a self-loop edge and the three terms
`X_a X_b`, `Y_a Y_b`, `Z_a Z_b` (each weighted by the coupling parameter)
for an edge between distinct nodes. -/
def second_q_ops {α : Type} (lat : LatticeGraph α) : SpinOpData α :=
  let ham := lat.weightedEdgeList.foldl (fun ham e =>
    let (node_a, node_b, weight) := e
    if node_a = node_b then
      ham ++ [("X_" ++ Nat.repr node_a, weight)]
    else
      ham ++ [("X_" ++ Nat.repr node_a ++ " X_" ++ Nat.repr node_b, weight),
              ("Y_" ++ Nat.repr node_a ++ " Y_" ++ Nat.repr node_b, weight),
              ("Z_" ++ Nat.repr node_a ++ " Z_" ++ Nat.repr node_b, weight)]) []
  ⟨ham, lat.numNodes⟩

/-- The terms one edge contributes, in the words of the spec: "a self-loop
edge yields a single-qubit X term, any other edge yields three two-qubit terms
(XX, YY, ZZ) each scaled by the edge weight". -/
def specEdgeTerms {α : Type} (e : Nat × Nat × α) : List (String × α) :=
  let (a, b, w) := e
  if a = b then [("X_" ++ Nat.repr a, w)]
  else
    [("X_" ++ Nat.repr a ++ " X_" ++ Nat.repr b, w),
     ("Y_" ++ Nat.repr a ++ " Y_" ++ Nat.repr b, w),
     ("Z_" ++ Nat.repr a ++ " Z_" ++ Nat.repr b, w)]

/-- The whole term list in the words of the spec: each edge contributes its
`specEdgeTerms`, and nothing else is produced. -/
def specHam {α : Type} (edges : List (Nat × Nat × α)) : List (String × α) :=
  edges.flatMap specEdgeTerms

end HeisenbergModel

/-! ## Parameter-name bookkeeping (claim C8) -/

/-- Run a sequence of `new_param` calls with the given paramstr arguments
against one builder instance. -/
def runNewParams (paramstrs : List String) (s : BuilderState) :
    List Parameter × BuilderState :=
  stateList new_param paramstrs s

/-- Closed form of the parameters generated by `runNewParams` starting from a
count of `start` already-created parameters. -/
def genParams (paramstrs : List String) (start : Nat) : List Parameter :=
  (List.enumFrom start paramstrs).map (fun ip => ⟨ip.1, ip.2 ++ Nat.repr ip.1⟩)

/-- The names of the parameters a call sequence generates on a fresh builder. -/
def namesOf (paramstrs : List String) : List String :=
  ((runNewParams paramstrs ⟨[]⟩).1).map (fun p => p.name)

/-- A string is digit-safe when it does not end in a decimal digit (so the
decimal counter appended to it can be parsed back off unambiguously).  Every
paramstr the repository passes ('phi', 'gamma', 'p', 't') is digit-safe. -/
def digitSafe (s : String) : Bool :=
  match s.data.getLast? with
  | none => true
  | some c => !c.isDigit

/-- `i` is the index of `p` in the parameter ordering `l`: `p` sits at
position `i` and at no earlier position. -/
def firstIdxAt (l : List Parameter) (p : Parameter) (i : Nat) : Prop :=
  l[i]? = some p ∧ ∀ j < i, l[j]? ≠ some p

/-- Is the gate one of the three two-qubit rotations rzz / ryy / rxx? -/
def CGate.isRot : CGate → Bool
  | .rzz .. => true
  | .ryy .. => true
  | .rxx .. => true
  | _ => false

/-- Numeric value of a decimal digit character. -/
def digitVal (c : Char) : Nat := c.toNat - 48

/-- Value of a decimal digit string, most significant digit first. -/
def valOfDigits (l : List Char) : Nat :=
  l.foldl (fun a c => 10 * a + digitVal c) 0

/-! ## Infrastructure lemmas -/

theorem mem_pyRangeUp {x a b st : Nat} :
    x ∈ pyRangeUp a b st ↔ ∃ k, k < (b - a + st - 1) / st ∧ x = a + k * st := by
  simp only [pyRangeUp, List.mem_map, List.mem_range]
  constructor
  · rintro ⟨k, hk, rfl⟩
    exact ⟨k, hk, rfl⟩
  · rintro ⟨k, hk, rfl⟩
    exact ⟨k, hk, rfl⟩

theorem mem_pyRangeDown {x a b st : Nat} :
    x ∈ pyRangeDown a b st ↔ ∃ k, k < (a - b + st - 1) / st ∧ x = a - k * st := by
  simp only [pyRangeDown, List.mem_map, List.mem_range]
  constructor
  · rintro ⟨k, hk, rfl⟩
    exact ⟨k, hk, rfl⟩
  · rintro ⟨k, hk, rfl⟩
    exact ⟨k, hk, rfl⟩

theorem length_pyRangeUp {a b st : Nat} :
    (pyRangeUp a b st).length = (b - a + st - 1) / st := by
  simp [pyRangeUp]

theorem length_pyRangeDown {a b st : Nat} :
    (pyRangeDown a b st).length = (a - b + st - 1) / st := by
  simp [pyRangeDown]

theorem stateList_nil {α β σ : Type} (f : α → σ → β × σ) (s : σ) :
    stateList f [] s = ([], s) := rfl

theorem stateList_cons {α β σ : Type} (f : α → σ → β × σ) (a : α) (l : List α) (s : σ) :
    stateList f (a :: l) s =
      ((f a s).1 :: (stateList f l (f a s).2).1, (stateList f l (f a s).2).2) := by
  simp only [stateList]

theorem stateList_length {α β σ : Type} (f : α → σ → β × σ) :
    ∀ (l : List α) (s : σ), (stateList f l s).1.length = l.length := by
  intro l
  induction l with
  | nil => intro s; rfl
  | cons a as ih =>
    intro s
    rw [stateList_cons]
    simp [ih]

theorem stateList_mem {α β σ : Type} (f : α → σ → β × σ) :
    ∀ {l : List α} {s : σ} {b : β}, b ∈ (stateList f l s).1 →
      ∃ a ∈ l, ∃ s0 : σ, b = (f a s0).1 := by
  intro l
  induction l with
  | nil => intro s b hb; simp [stateList_nil] at hb
  | cons a as ih =>
    intro s b hb
    rw [stateList_cons] at hb
    rcases List.mem_cons.mp hb with h | h
    · exact ⟨a, List.mem_cons_self a as, s, h⟩
    · obtain ⟨a0, ha0, s0, hs0⟩ := ih h
      exact ⟨a0, List.mem_cons_of_mem a ha0, s0, hs0⟩

theorem stateList_all_of {α β σ : Type} {f : α → σ → β × σ} {P : β → Prop}
    (hf : ∀ a s, P (f a s).1) :
    ∀ {l : List α} {s : σ} {b : β}, b ∈ (stateList f l s).1 → P b := by
  intro l s b hb
  obtain ⟨a, _, s0, rfl⟩ := stateList_mem f hb
  exact hf a s0

theorem validateCGates_ok {n : Nat} {gs : List CGate}
    (h : ∀ g ∈ gs, ∀ q ∈ g.qubits, q < n) : validateCGates n gs = .ok ⟨n, gs⟩ := by
  unfold validateCGates
  rw [if_pos]
  rw [List.all_eq_true]
  intro g hg
  rw [List.all_eq_true]
  intro q hq
  simpa using h g hg q hq

/-! ## Bounds of the custom-ansatz gate layouts -/

theorem rvb_xInit_bounds {n : Nat} : ∀ g ∈ RVB.xInit n, ∀ q ∈ g.qubits, q < n := by
  intro g hg q hq
  simp only [RVB.xInit, List.mem_map] at hg
  obtain ⟨i, hi, rfl⟩ := hg
  rw [mem_pyRangeUp] at hi
  obtain ⟨k, hk, rfl⟩ := hi
  simp only [CGate.qubits, List.mem_singleton] at hq
  omega

theorem rvb_bell_bounds {n : Nat} (he : n % 2 = 0) :
    ∀ g ∈ RVB.bell n, ∀ q ∈ g.qubits, q < n := by
  intro g hg q hq
  simp only [RVB.bell, List.mem_flatMap] at hg
  obtain ⟨j, hj, hgj⟩ := hg
  rw [mem_pyRangeUp] at hj
  obtain ⟨k, hk, rfl⟩ := hj
  by_cases hpar : (0 + k * 1) % 2 = 0
  · rw [if_pos hpar] at hgj
    simp only [List.mem_cons, List.mem_singleton, List.not_mem_nil, or_false] at hgj
    rcases hgj with rfl | rfl
    · simp only [CGate.qubits, List.mem_singleton] at hq
      omega
    · simp only [CGate.qubits, List.mem_cons, List.mem_singleton,
        List.not_mem_nil, or_false] at hq
      rcases hq with rfl | rfl
      · omega
      · omega
  · rw [if_neg hpar] at hgj
    simp at hgj

theorem rvb_passDown_bounds (n : Nat) (s : BuilderState) :
    ∀ g ∈ (RVB.passDown n s).1, ∀ q ∈ g.qubits, q < n := by
  intro g hg q hq
  have := stateList_mem (fun l s =>
    let ((p1, p2), s1) := RVB.add_eSWAP s
    (if l < n - 1 then CGate.eswap p1 p2 l (l + 1) else CGate.eswap p1 p2 l 0, s1)) hg
  obtain ⟨l, hl, s0, rfl⟩ := this
  rw [mem_pyRangeDown] at hl
  obtain ⟨k, hk, rfl⟩ := hl
  rcases hsw : RVB.add_eSWAP s0 with ⟨⟨p1, p2⟩, s1⟩
  simp only [hsw] at hq
  by_cases hc : n - 1 - k * 2 < n - 1
  · rw [if_pos hc] at hq
    simp only [CGate.qubits, List.mem_cons, List.mem_singleton] at hq
    rcases hq with rfl | rfl | h
    · omega
    · omega
    · simp at h
  · rw [if_neg hc] at hq
    simp only [CGate.qubits, List.mem_cons, List.mem_singleton] at hq
    rcases hq with rfl | rfl | h
    · omega
    · omega
    · simp at h

theorem rvb_passUp_bounds (n : Nat) (s : BuilderState) :
    ∀ g ∈ (RVB.passUp n s).1, ∀ q ∈ g.qubits, q < n := by
  intro g hg q hq
  have := stateList_mem (fun l s =>
    let ((p1, p2), s1) := RVB.add_eSWAP s
    (CGate.eswap p1 p2 l (l + 1), s1)) hg
  obtain ⟨l, hl, s0, rfl⟩ := this
  rw [mem_pyRangeUp] at hl
  obtain ⟨k, hk, rfl⟩ := hl
  rcases hsw : RVB.add_eSWAP s0 with ⟨⟨p1, p2⟩, s1⟩
  simp only [hsw] at hq
  simp only [CGate.qubits, List.mem_cons, List.mem_singleton] at hq
  rcases hq with rfl | rfl | h
  · omega
  · omega
  · simp at h

theorem rvb_repLoop_bounds (n reps : Nat) (s : BuilderState) :
    ∀ g ∈ (RVB.repLoop n reps s).1, ∀ q ∈ g.qubits, q < n := by
  intro g hg q hq
  simp only [RVB.repLoop, List.mem_flatten] at hg
  obtain ⟨piece, hp, hgp⟩ := hg
  have := stateList_mem (fun _ s =>
    let (g1, s1) := RVB.passDown n s
    let (g2, s2) := RVB.passUp n s1
    (g1 ++ g2, s2)) hp
  obtain ⟨a, _, s0, rfl⟩ := this
  rcases hd : RVB.passDown n s0 with ⟨g1, s1⟩
  rcases hu : RVB.passUp n s1 with ⟨g2, s2⟩
  simp only [hd, hu] at hgp
  rcases List.mem_append.mp hgp with h | h
  · have := rvb_passDown_bounds n s0
    rw [hd] at this
    exact this g h q hq
  · have := rvb_passUp_bounds n s1
    rw [hu] at this
    exact this g h q hq

theorem hva_xInit_bounds {n : Nat} : ∀ g ∈ HVAnsatz.xInit n, ∀ q ∈ g.qubits, q < n := by
  intro g hg q hq
  simp only [HVAnsatz.xInit, List.mem_map] at hg
  obtain ⟨i, hi, rfl⟩ := hg
  rw [mem_pyRangeUp] at hi
  obtain ⟨k, hk, rfl⟩ := hi
  simp only [CGate.qubits, List.mem_singleton] at hq
  omega

theorem hva_bell_empty {n : Nat} (he : n % 2 = 0) : HVAnsatz.bell n = [] := by
  rcases Nat.eq_zero_or_pos n with rfl | hpos
  · simp [HVAnsatz.bell, pyRangeUp]
  · have : ¬ (n - 1) % 2 = 0 := by omega
    simp [HVAnsatz.bell, this]

theorem hva_oddLayer_bounds (n : Nat) (s : BuilderState) :
    ∀ g ∈ (HVAnsatz.oddLayer n s).1, ∀ q ∈ g.qubits, q < n := by
  intro g hg q hq
  simp only [HVAnsatz.oddLayer, List.mem_flatten] at hg
  obtain ⟨piece, hp, hgp⟩ := hg
  have := stateList_mem (fun i s =>
    let (p1, s1) := new_param "phi" s
    let (p2, s2) := new_param "phi" s1
    let (p3, s3) := new_param "phi" s2
    (if i < n - 1 then
      [CGate.rzz p1 i (i + 1), CGate.ryy p2 i (i + 1), CGate.rxx p3 i (i + 1)]
    else
      [CGate.rzz p1 i 0, CGate.ryy p2 i 0, CGate.rxx p3 i 0], s3)) hp
  obtain ⟨i, hi, s0, rfl⟩ := this
  rw [mem_pyRangeDown] at hi
  obtain ⟨k, hk, rfl⟩ := hi
  rcases h1 : new_param "phi" s0 with ⟨p1, s1⟩
  rcases h2 : new_param "phi" s1 with ⟨p2, s2⟩
  rcases h3 : new_param "phi" s2 with ⟨p3, s3⟩
  simp only [h1, h2, h3] at hgp
  by_cases hc : n - 1 - k * 2 < n - 1
  · rw [if_pos hc] at hgp
    simp only [List.mem_cons, List.mem_singleton, List.not_mem_nil, or_false] at hgp
    rcases hgp with rfl | rfl | rfl <;>
      (simp only [CGate.qubits, List.mem_cons, List.mem_singleton,
        List.not_mem_nil, or_false] at hq; rcases hq with rfl | rfl <;> omega)
  · rw [if_neg hc] at hgp
    simp only [List.mem_cons, List.mem_singleton, List.not_mem_nil, or_false] at hgp
    rcases hgp with rfl | rfl | rfl <;>
      (simp only [CGate.qubits, List.mem_cons, List.mem_singleton,
        List.not_mem_nil, or_false] at hq; rcases hq with rfl | rfl <;> omega)

theorem hva_evenLayer_bounds (n : Nat) (s : BuilderState) (he : n % 2 = 0) :
    ∀ g ∈ (HVAnsatz.evenLayer n s).1, ∀ q ∈ g.qubits, q < n := by
  intro g hg q hq
  simp only [HVAnsatz.evenLayer, List.mem_flatten] at hg
  obtain ⟨piece, hp, hgp⟩ := hg
  have := stateList_mem (fun i s =>
    let (p1, s1) := new_param "gamma" s
    let (p2, s2) := new_param "gamma" s1
    let (p3, s3) := new_param "gamma" s2
    ([CGate.rzz p1 i (i + 1), CGate.ryy p2 i (i + 1), CGate.rxx p3 i (i + 1)], s3)) hp
  obtain ⟨i, hi, s0, rfl⟩ := this
  rw [mem_pyRangeUp] at hi
  obtain ⟨k, hk, rfl⟩ := hi
  rcases h1 : new_param "gamma" s0 with ⟨p1, s1⟩
  rcases h2 : new_param "gamma" s1 with ⟨p2, s2⟩
  rcases h3 : new_param "gamma" s2 with ⟨p3, s3⟩
  simp only [h1, h2, h3] at hgp
  simp only [List.mem_cons, List.mem_singleton, List.not_mem_nil, or_false] at hgp
  rcases hgp with rfl | rfl | rfl <;>
    (simp only [CGate.qubits, List.mem_cons, List.mem_singleton,
      List.not_mem_nil, or_false] at hq; rcases hq with rfl | rfl <;> omega)

theorem hva_repLoop_bounds (n reps : Nat) (s : BuilderState) (he : n % 2 = 0) :
    ∀ g ∈ (HVAnsatz.repLoop n reps s).1, ∀ q ∈ g.qubits, q < n := by
  intro g hg q hq
  simp only [HVAnsatz.repLoop, List.mem_flatten] at hg
  obtain ⟨piece, hp, hgp⟩ := hg
  have := stateList_mem (fun _ s =>
    let (g1, s1) := HVAnsatz.oddLayer n s
    let (g2, s2) := HVAnsatz.evenLayer n s1
    (g1 ++ g2, s2)) hp
  obtain ⟨a, _, s0, rfl⟩ := this
  rcases hd : HVAnsatz.oddLayer n s0 with ⟨g1, s1⟩
  rcases hu : HVAnsatz.evenLayer n s1 with ⟨g2, s2⟩
  simp only [hd, hu] at hgp
  rcases List.mem_append.mp hgp with h | h
  · have := hva_oddLayer_bounds n s0
    rw [hd] at this
    exact this g h q hq
  · have := hva_evenLayer_bounds n s1 he
    rw [hu] at this
    exact this g h q hq

theorem rvb_circuit_even {n reps : Nat} (he : n % 2 = 0) :
    RVB.circuit n reps =
      .ok (⟨n, RVB.xInit n ++ RVB.bell n ++ (RVB.repLoop n reps ⟨[]⟩).1⟩,
           (RVB.repLoop n reps ⟨[]⟩).2) := by
  unfold RVB.circuit
  rw [if_neg (by omega)]
  rcases hrl : RVB.repLoop n reps ⟨[]⟩ with ⟨lg, s1⟩
  have hval : validateCGates n (RVB.xInit n ++ RVB.bell n ++ lg) =
      .ok ⟨n, RVB.xInit n ++ RVB.bell n ++ lg⟩ := by
    apply validateCGates_ok
    intro g hg q hq
    rcases List.mem_append.mp hg with h | h
    · rcases List.mem_append.mp h with h2 | h2
      · exact rvb_xInit_bounds g h2 q hq
      · exact rvb_bell_bounds he g h2 q hq
    · have := rvb_repLoop_bounds n reps ⟨[]⟩
      rw [hrl] at this
      exact this g h q hq
  rw [List.append_assoc] at hval
  simp [hval, Except.map]

theorem hva_circuit_even {n reps : Nat} (he : n % 2 = 0) :
    HVAnsatz.circuit n reps =
      .ok (⟨n, HVAnsatz.xInit n ++ HVAnsatz.bell n ++ (HVAnsatz.repLoop n reps ⟨[]⟩).1⟩,
           (HVAnsatz.repLoop n reps ⟨[]⟩).2) := by
  unfold HVAnsatz.circuit
  rw [if_neg (by omega)]
  rcases hrl : HVAnsatz.repLoop n reps ⟨[]⟩ with ⟨lg, s1⟩
  have hval : validateCGates n (HVAnsatz.xInit n ++ HVAnsatz.bell n ++ lg) =
      .ok ⟨n, HVAnsatz.xInit n ++ HVAnsatz.bell n ++ lg⟩ := by
    apply validateCGates_ok
    intro g hg q hq
    rcases List.mem_append.mp hg with h | h
    · rcases List.mem_append.mp h with h2 | h2
      · exact hva_xInit_bounds g h2 q hq
      · rw [hva_bell_empty he] at h2
        simp at h2
    · have := hva_repLoop_bounds n reps ⟨[]⟩ he
      rw [hrl] at this
      exact this g h q hq
  rw [List.append_assoc] at hval
  simp [hval, Except.map]

theorem cgate_not_rot_facts {g : CGate} (h : g.isRot = true) :
    g.isH = false ∧ g.isCx = false := by
  cases g <;> simp_all [CGate.isRot, CGate.isH, CGate.isCx]

theorem hva_oddLayer_shape (n : Nat) (s : BuilderState) :
    ∀ g ∈ (HVAnsatz.oddLayer n s).1, g.isRot = true := by
  intro g hg
  simp only [HVAnsatz.oddLayer, List.mem_flatten] at hg
  obtain ⟨piece, hp, hgp⟩ := hg
  have := stateList_mem (fun i s =>
    let (p1, s1) := new_param "phi" s
    let (p2, s2) := new_param "phi" s1
    let (p3, s3) := new_param "phi" s2
    (if i < n - 1 then
      [CGate.rzz p1 i (i + 1), CGate.ryy p2 i (i + 1), CGate.rxx p3 i (i + 1)]
    else
      [CGate.rzz p1 i 0, CGate.ryy p2 i 0, CGate.rxx p3 i 0], s3)) hp
  obtain ⟨i, _, s0, rfl⟩ := this
  rcases h1 : new_param "phi" s0 with ⟨p1, s1⟩
  rcases h2 : new_param "phi" s1 with ⟨p2, s2⟩
  rcases h3 : new_param "phi" s2 with ⟨p3, s3⟩
  simp only [h1, h2, h3] at hgp
  by_cases hc : i < n - 1
  · rw [if_pos hc] at hgp
    simp only [List.mem_cons, List.mem_singleton, List.not_mem_nil, or_false] at hgp
    rcases hgp with rfl | rfl | rfl <;> rfl
  · rw [if_neg hc] at hgp
    simp only [List.mem_cons, List.mem_singleton, List.not_mem_nil, or_false] at hgp
    rcases hgp with rfl | rfl | rfl <;> rfl

theorem hva_evenLayer_shape (n : Nat) (s : BuilderState) :
    ∀ g ∈ (HVAnsatz.evenLayer n s).1, g.isRot = true := by
  intro g hg
  simp only [HVAnsatz.evenLayer, List.mem_flatten] at hg
  obtain ⟨piece, hp, hgp⟩ := hg
  have := stateList_mem (fun i s =>
    let (p1, s1) := new_param "gamma" s
    let (p2, s2) := new_param "gamma" s1
    let (p3, s3) := new_param "gamma" s2
    ([CGate.rzz p1 i (i + 1), CGate.ryy p2 i (i + 1), CGate.rxx p3 i (i + 1)], s3)) hp
  obtain ⟨i, _, s0, rfl⟩ := this
  rcases h1 : new_param "gamma" s0 with ⟨p1, s1⟩
  rcases h2 : new_param "gamma" s1 with ⟨p2, s2⟩
  rcases h3 : new_param "gamma" s2 with ⟨p3, s3⟩
  simp only [h1, h2, h3] at hgp
  simp only [List.mem_cons, List.mem_singleton, List.not_mem_nil, or_false] at hgp
  rcases hgp with rfl | rfl | rfl <;> rfl

theorem hva_repLoop_shape (n reps : Nat) (s : BuilderState) :
    ∀ g ∈ (HVAnsatz.repLoop n reps s).1, g.isRot = true := by
  intro g hg
  simp only [HVAnsatz.repLoop, List.mem_flatten] at hg
  obtain ⟨piece, hp, hgp⟩ := hg
  have := stateList_mem (fun _ s =>
    let (g1, s1) := HVAnsatz.oddLayer n s
    let (g2, s2) := HVAnsatz.evenLayer n s1
    (g1 ++ g2, s2)) hp
  obtain ⟨a, _, s0, rfl⟩ := this
  rcases hd : HVAnsatz.oddLayer n s0 with ⟨g1, s1⟩
  rcases hu : HVAnsatz.evenLayer n s1 with ⟨g2, s2⟩
  simp only [hd, hu] at hgp
  rcases List.mem_append.mp hgp with h | h
  · have := hva_oddLayer_shape n s0
    rw [hd] at this
    exact this g h
  · have := hva_evenLayer_shape n s1
    rw [hu] at this
    exact this g h

/-! ## Claim theorems: C1, C3, C4, C5 -/

/-- C1, counterexample: for RVB with qubit count 4 and repetitions 1, the
returned circuit does NOT contain 3 eSWAP blocks with 6 distinct parameters —
the descending pass visits l ∈ {3, 1} and the ascending pass l ∈ {0, 2},
giving 4 blocks and 8 parameters. -/
theorem claim_C1_counterexample :
    (RVB.circuit 4 1).map
        (fun cs => (cs.1.gates.countP CGate.isESwap,
                    (cs.1.gates.flatMap CGate.params).dedup.length,
                    cs.1.numQubits))
      ≠ Except.ok (3, 6, 4) := by decide

/-- C1, amended: for RVB with qubit count 4 and repetition count 1,
`circuit()` returns a circuit containing exactly 4 eSWAP blocks and exactly
8 distinct parameters (2 per block, 8 = 2 × 4, and the builder's own
parameter list also has 8 entries), and the returned circuit's qubit count
equals 4. -/
theorem claim_C1 :
    (RVB.circuit 4 1).map
        (fun cs => (cs.1.gates.countP CGate.isESwap,
                    (cs.1.gates.flatMap CGate.params).dedup.length,
                    cs.1.numQubits))
      = Except.ok (4, 8, 4) ∧
    (RVB.circuit 4 1).map (fun cs => cs.2.params.length) = Except.ok 8 ∧
    8 = 2 * 4 := by decide

/-- C3: in `HVAnsatz.circuit`, the Bell-pair guard tests the stale variable
`i = n - 1` (odd for even `n ≥ 2`), so the whole Bell-pair section emits
nothing, and the returned circuit contains no Hadamard and no CNOT gate. -/
theorem claim_C3 (n reps : Nat) (h2 : 2 ≤ n) (he : n % 2 = 0) :
    HVAnsatz.bell n = [] ∧
    ∃ c s, HVAnsatz.circuit n reps = .ok (c, s) ∧
      c.gates.countP CGate.isH = 0 ∧ c.gates.countP CGate.isCx = 0 := by
  refine ⟨hva_bell_empty he, ⟨_, _, hva_circuit_even he, ?_, ?_⟩⟩
  · rw [List.countP_append, List.countP_append]
    have hx : (HVAnsatz.xInit n).countP CGate.isH = 0 := by
      rw [List.countP_eq_zero]
      intro g hg
      simp only [HVAnsatz.xInit, List.mem_map] at hg
      obtain ⟨i, _, rfl⟩ := hg
      simp [CGate.isH]
    have hb : (HVAnsatz.bell n).countP CGate.isH = 0 := by
      rw [hva_bell_empty he]; rfl
    have hr : ((HVAnsatz.repLoop n reps ⟨[]⟩).1).countP CGate.isH = 0 := by
      rw [List.countP_eq_zero]
      intro g hg
      have := (cgate_not_rot_facts (hva_repLoop_shape n reps ⟨[]⟩ g hg)).1
      simp [this]
    omega
  · rw [List.countP_append, List.countP_append]
    have hx : (HVAnsatz.xInit n).countP CGate.isCx = 0 := by
      rw [List.countP_eq_zero]
      intro g hg
      simp only [HVAnsatz.xInit, List.mem_map] at hg
      obtain ⟨i, _, rfl⟩ := hg
      simp [CGate.isCx]
    have hb : (HVAnsatz.bell n).countP CGate.isCx = 0 := by
      rw [hva_bell_empty he]; rfl
    have hr : ((HVAnsatz.repLoop n reps ⟨[]⟩).1).countP CGate.isCx = 0 := by
      rw [List.countP_eq_zero]
      intro g hg
      have := (cgate_not_rot_facts (hva_repLoop_shape n reps ⟨[]⟩ g hg)).2
      simp [this]
    omega

/-- C3 witness at n = 4, reps = 1. -/
theorem claim_C3_witness :
    HVAnsatz.bell 4 = [] ∧
    ∃ c s, HVAnsatz.circuit 4 1 = .ok (c, s) ∧
      c.gates.countP CGate.isH = 0 ∧ c.gates.countP CGate.isCx = 0 :=
  claim_C3 4 1 (by decide) (by decide)

/-- C4: for every even qubit count both `RVB.circuit` and `HVAnsatz.circuit`
return a circuit; for every odd qubit count both fail with the documented
CircuitError ("The number of qubits should be even!"), raised by the parity
check that precedes all gate emission. -/
theorem claim_C4 (n reps : Nat) :
    (n % 2 = 0 → (RVB.circuit n reps).isOk = true ∧
                 (HVAnsatz.circuit n reps).isOk = true) ∧
    (n % 2 = 1 → RVB.circuit n reps = .error "The number of qubits should be even!" ∧
                 HVAnsatz.circuit n reps = .error "The number of qubits should be even!") := by
  constructor
  · intro he
    rw [rvb_circuit_even he, hva_circuit_even he]
    exact ⟨rfl, rfl⟩
  · intro ho
    constructor
    · unfold RVB.circuit
      rw [if_pos (by omega)]
    · unfold HVAnsatz.circuit
      rw [if_pos (by omega)]

/-- C4 witness at n = 4 and n = 3 (reps = 1). -/
theorem claim_C4_witness :
    ((RVB.circuit 4 1).isOk = true ∧ (HVAnsatz.circuit 4 1).isOk = true) ∧
    (RVB.circuit 3 1 = .error "The number of qubits should be even!" ∧
     HVAnsatz.circuit 3 1 = .error "The number of qubits should be even!") :=
  ⟨(claim_C4 4 1).1 (by decide), (claim_C4 3 1).2 (by decide)⟩

/-- C5: for HVAnsatz with qubit count 4 and repetitions 1, the odd layer
visits the pairs (3,0) and (1,2) and the even layer the pairs (0,1) and
(2,3); each pair receives exactly three rotations (rzz, ryy, rxx) carrying
three freshly allocated parameters (uids 0-2, 3-5, 6-8, 9-11 in creation
order), 12 = 3 × 4 parameters in total. -/
theorem claim_C5 :
    (HVAnsatz.circuit 4 1).map
        (fun cs => cs.1.gates.map (fun g => (g.params.map Parameter.uid, g.qubits)))
      = Except.ok [([], [0]), ([], [1]), ([], [2]), ([], [3]),
         ([0], [3, 0]), ([1], [3, 0]), ([2], [3, 0]),
         ([3], [1, 2]), ([4], [1, 2]), ([5], [1, 2]),
         ([6], [0, 1]), ([7], [0, 1]), ([8], [0, 1]),
         ([9], [2, 3]), ([10], [2, 3]), ([11], [2, 3])] ∧
    (HVAnsatz.circuit 4 1).map (fun cs => cs.2.params.length) = Except.ok 12 ∧
    12 = 3 * (2 + 2) := by decide

/-! ## CRAnsatz layer lemmas -/

theorem crAnsatz_rxSection_mem {n : Nat} {addRz : Bool} {s : BuilderState} :
    ∀ g ∈ (CRAnsatz.rxSection n addRz s).1,
      ∃ p q, q < n ∧ (g = PGate.rx p q ∨ g = PGate.rz p q) := by
  intro g hg
  simp only [CRAnsatz.rxSection, List.mem_flatten] at hg
  obtain ⟨piece, hp, hgp⟩ := hg
  have := stateList_mem (fun q s =>
    let (g, s1) := AnsatzBuilder.add_rx q s
    if addRz then
      let (p, s2) := new_param "phi" s1
      ([g, PGate.rz p q], s2)
    else ([g], s1)) hp
  obtain ⟨q, hq, s0, rfl⟩ := this
  rw [mem_pyRangeUp] at hq
  obtain ⟨k, hk, rfl⟩ := hq
  rcases hrx : AnsatzBuilder.add_rx (0 + k * 1) s0 with ⟨grx, s1⟩
  have hgrx : ∃ p, grx = PGate.rx p (0 + k * 1) := by
    simp only [AnsatzBuilder.add_rx] at hrx
    rcases hnp : new_param "phi" s0 with ⟨p, s2⟩
    rw [hnp] at hrx
    injection hrx with h1 h2
    exact ⟨p, h1.symm⟩
  obtain ⟨p, rfl⟩ := hgrx
  simp only [hrx] at hgp
  cases addRz with
  | false =>
    rw [if_neg (by simp)] at hgp
    simp only [List.mem_singleton] at hgp
    subst hgp
    exact ⟨p, 0 + k * 1, by omega, Or.inl rfl⟩
  | true =>
    rw [if_pos rfl] at hgp
    rcases hnp2 : new_param "phi" s1 with ⟨p2, s2⟩
    rw [hnp2] at hgp
    simp only [List.mem_cons, List.mem_singleton, List.not_mem_nil, or_false] at hgp
    rcases hgp with rfl | rfl
    · exact ⟨p, 0 + k * 1, by omega, Or.inl rfl⟩
    · exact ⟨p2, 0 + k * 1, by omega, Or.inr rfl⟩

theorem crAnsatz_rxSection_no_cr {n : Nat} {addRz : Bool} {s : BuilderState} :
    (CRAnsatz.rxSection n addRz s).1.countP PGate.isCr = 0 := by
  rw [List.countP_eq_zero]
  intro g hg
  obtain ⟨p, q, -, hc | hc⟩ := crAnsatz_rxSection_mem g hg <;> subst hc <;> simp [PGate.isCr]

theorem crAnsatz_rxSection_bounds (n : Nat) (addRz : Bool) (s : BuilderState) :
    ∀ g ∈ (CRAnsatz.rxSection n addRz s).1, ∀ q ∈ g.qubits, q < n := by
  intro g hg q hq
  obtain ⟨p, q0, hq0, hc | hc⟩ := crAnsatz_rxSection_mem g hg <;> subst hc <;>
    (simp only [PGate.qubits, List.mem_singleton] at hq; omega)

theorem add_cr_fst (qs : Nat × Nat) (s : BuilderState) :
    ∃ t p, (AnsatzBuilder.add_cr qs s).1 = PGate.cr t p qs.1 qs.2 := by
  simp only [AnsatzBuilder.add_cr]
  rcases h1 : new_param "t" s with ⟨t, s1⟩
  rcases h2 : new_param "phi" s1 with ⟨p, s2⟩
  exact ⟨t, p, rfl⟩

theorem crAnsatz_interleaved_mem {n : Nat} {s : BuilderState} :
    ∀ g ∈ (CRAnsatz.interleavedSection n s).1,
      ∃ t p q, g = PGate.cr t p q (q + 1) ∧
        (q ∈ pyRangeUp 0 n 2 ∨ q ∈ pyRangeUp 1 (n - 1) 2) := by
  intro g hg
  simp only [CRAnsatz.interleavedSection] at hg
  rcases hp1 : stateList (fun q s => AnsatzBuilder.add_cr (q, q + 1) s) (pyRangeUp 0 n 2) s
    with ⟨g1, s1⟩
  rcases hp2 : stateList (fun q s => AnsatzBuilder.add_cr (q, q + 1) s) (pyRangeUp 1 (n - 1) 2) s1
    with ⟨g2, s2⟩
  rw [hp1, hp2] at hg
  simp only [List.mem_append] at hg
  rcases hg with h | h
  · have hm : g ∈ (stateList (fun q s => AnsatzBuilder.add_cr (q, q + 1) s)
        (pyRangeUp 0 n 2) s).1 := by rw [hp1]; exact h
    obtain ⟨q, hq, s0, rfl⟩ := stateList_mem (fun q s => AnsatzBuilder.add_cr (q, q + 1) s) hm
    obtain ⟨t, p, hc⟩ := add_cr_fst (q, q + 1) s0
    exact ⟨t, p, q, hc, Or.inl hq⟩
  · have hm : g ∈ (stateList (fun q s => AnsatzBuilder.add_cr (q, q + 1) s)
        (pyRangeUp 1 (n - 1) 2) s1).1 := by rw [hp2]; exact h
    obtain ⟨q, hq, s0, rfl⟩ := stateList_mem (fun q s => AnsatzBuilder.add_cr (q, q + 1) s) hm
    obtain ⟨t, p, hc⟩ := add_cr_fst (q, q + 1) s0
    exact ⟨t, p, q, hc, Or.inr hq⟩

theorem crAnsatz_interleaved_bounds {n : Nat} {s : BuilderState} (he : n % 2 = 0) :
    ∀ g ∈ (CRAnsatz.interleavedSection n s).1, ∀ q ∈ g.qubits, q < n := by
  intro g hg q hq
  obtain ⟨t, p, q0, rfl, hq0⟩ := crAnsatz_interleaved_mem g hg
  simp only [PGate.qubits, List.mem_cons, List.mem_singleton, List.not_mem_nil, or_false] at hq
  rcases hq0 with hm | hm <;> rw [mem_pyRangeUp] at hm <;> obtain ⟨k, hk, rfl⟩ := hm <;>
    rcases hq with rfl | rfl <;> omega

theorem crAnsatz_interleaved_count {n : Nat} {s : BuilderState} :
    (CRAnsatz.interleavedSection n s).1.countP PGate.isCr =
      (n + 1) / 2 + (n - 1 - 1 + 1) / 2 := by
  simp only [CRAnsatz.interleavedSection]
  rcases hp1 : stateList (fun q s => AnsatzBuilder.add_cr (q, q + 1) s) (pyRangeUp 0 n 2) s
    with ⟨g1, s1⟩
  rcases hp2 : stateList (fun q s => AnsatzBuilder.add_cr (q, q + 1) s) (pyRangeUp 1 (n - 1) 2) s1
    with ⟨g2, s2⟩
  rw [List.countP_append]
  have hall1 : g1.countP PGate.isCr = g1.length := by
    rw [List.countP_eq_length]
    intro g hg
    have hm : g ∈ (stateList (fun q s => AnsatzBuilder.add_cr (q, q + 1) s)
        (pyRangeUp 0 n 2) s).1 := by rw [hp1]; exact hg
    obtain ⟨q, _, s0, rfl⟩ := stateList_mem (fun q s => AnsatzBuilder.add_cr (q, q + 1) s) hm
    obtain ⟨t, p, hc⟩ := add_cr_fst (q, q + 1) s0
    rw [hc]; rfl
  have hall2 : g2.countP PGate.isCr = g2.length := by
    rw [List.countP_eq_length]
    intro g hg
    have hm : g ∈ (stateList (fun q s => AnsatzBuilder.add_cr (q, q + 1) s)
        (pyRangeUp 1 (n - 1) 2) s1).1 := by rw [hp2]; exact hg
    obtain ⟨q, _, s0, rfl⟩ := stateList_mem (fun q s => AnsatzBuilder.add_cr (q, q + 1) s) hm
    obtain ⟨t, p, hc⟩ := add_cr_fst (q, q + 1) s0
    rw [hc]; rfl
  have hl1 : g1.length = (n - 0 + 2 - 1) / 2 := by
    have := stateList_length (fun q s => AnsatzBuilder.add_cr (q, q + 1) s) (pyRangeUp 0 n 2) s
    rw [hp1] at this
    simp only [this, length_pyRangeUp]
  have hl2 : g2.length = (n - 1 - 1 + 2 - 1) / 2 := by
    have := stateList_length (fun q s => AnsatzBuilder.add_cr (q, q + 1) s)
      (pyRangeUp 1 (n - 1) 2) s1
    rw [hp2] at this
    simp only [this, length_pyRangeUp]
  rw [hall1, hall2, hl1, hl2]
  omega

theorem crAnsatz_layerGates_interleaved {n : Nat} {addRz : Bool} {s : BuilderState} :
    CRAnsatz.layerGates n (.tag "interleaved") addRz s =
      ((CRAnsatz.rxSection n addRz s).1 ++
         (CRAnsatz.interleavedSection n (CRAnsatz.rxSection n addRz s).2).1,
       (CRAnsatz.interleavedSection n (CRAnsatz.rxSection n addRz s).2).2) := by
  unfold CRAnsatz.layerGates
  rcases hrx : CRAnsatz.rxSection n addRz s with ⟨g0, s0⟩
  dsimp only
  rw [if_pos (rfl : Entanglement.tag "interleaved" = Entanglement.tag "interleaved")]

theorem crAnsatz_layerGates_other {n : Nat} {str : String} {addRz : Bool} {s : BuilderState}
    (hstr : str ≠ "interleaved") :
    CRAnsatz.layerGates n (.tag str) addRz s = CRAnsatz.rxSection n addRz s := by
  unfold CRAnsatz.layerGates
  rcases hrx : CRAnsatz.rxSection n addRz s with ⟨g0, s0⟩
  dsimp only
  have hne : Entanglement.tag str ≠ Entanglement.tag "interleaved" := by
    intro hc
    injection hc with hc2
    exact hstr hc2
  rw [if_neg hne]
  dsimp only
  simp

/-! ## Claim theorems: C2, C10 -/

/-- C2, counterexample: for qubit count 1 with "interleaved" entanglement,
`CRAnsatz._layer` does not append ⌊1/2⌋ + ⌊0/2⌋ = 0 cross-resonance gates and
return — the first interleaved pass visits qubit 0 and appends a cr gate on
the pair (0, 1), whose second qubit is out of range, so the call raises. -/
theorem claim_C2_counterexample :
    ¬ ∃ out : List PGate × BuilderState,
        CRAnsatz._layer 1 (Entanglement.tag "interleaved") false ⟨[]⟩ = .ok out ∧
        out.1.countP PGate.isCr = 1 / 2 + (1 - 1) / 2 := by
  intro hex
  obtain ⟨out, hok, -⟩ := hex
  have herr : CRAnsatz._layer 1 (Entanglement.tag "interleaved") false ⟨[]⟩ =
      .error "CircuitError: qubit index out of range" := by decide
  rw [herr] at hok
  exact Except.noConfusion hok

/-- C2, amended: for every EVEN qubit count N with entanglement "interleaved",
`CRAnsatz._layer` appends exactly ⌊N/2⌋ + ⌊(N-1)/2⌋ cross-resonance gates to
the layer circuit (for odd N the first interleaved pass reaches the
out-of-range pair (N-1, N) and the append raises instead). -/
theorem claim_C2 (n : Nat) (addRz : Bool) (s : BuilderState) (he : n % 2 = 0) :
    ∃ gs s1, CRAnsatz._layer n (Entanglement.tag "interleaved") addRz s = .ok (gs, s1) ∧
      gs.countP PGate.isCr = n / 2 + (n - 1) / 2 := by
  unfold CRAnsatz._layer
  rw [crAnsatz_layerGates_interleaved]
  dsimp only
  have hbounds : ((CRAnsatz.rxSection n addRz s).1 ++
      (CRAnsatz.interleavedSection n (CRAnsatz.rxSection n addRz s).2).1).all
        (fun gate => gate.qubits.all (· < n)) = true := by
    rw [List.all_eq_true]
    intro g hg
    rw [List.all_eq_true]
    intro q hq
    rcases List.mem_append.mp hg with h | h
    · simpa using crAnsatz_rxSection_bounds n addRz s g h q hq
    · simpa using crAnsatz_interleaved_bounds he g h q hq
  rw [if_pos hbounds]
  refine ⟨_, _, rfl, ?_⟩
  rw [List.countP_append, crAnsatz_rxSection_no_cr, crAnsatz_interleaved_count]
  omega

/-- C2 witness at N = 4 (3 cross-resonance gates). -/
theorem claim_C2_witness :
    ∃ gs s1, CRAnsatz._layer 4 (Entanglement.tag "interleaved") false ⟨[]⟩ = .ok (gs, s1) ∧
      gs.countP PGate.isCr = 4 / 2 + (4 - 1) / 2 :=
  claim_C2 4 false ⟨[]⟩ (by decide)

/-- C10: for an entanglement value that is a string other than "interleaved",
`CRAnsatz._layer` raises no error and emits no cross-resonance gate: the
layer is exactly the per-qubit rx (and optional rz) rotation section. -/
theorem claim_C10 (n : Nat) (addRz : Bool) (s : BuilderState) (str : String)
    (h : str ≠ "interleaved") :
    CRAnsatz._layer n (Entanglement.tag str) addRz s = .ok (CRAnsatz.rxSection n addRz s) ∧
    (CRAnsatz.rxSection n addRz s).1.countP PGate.isCr = 0 ∧
    ∀ g ∈ (CRAnsatz.rxSection n addRz s).1,
      (∃ p q, g = PGate.rx p q) ∨ (∃ p q, g = PGate.rz p q) := by
  refine ⟨?_, crAnsatz_rxSection_no_cr, ?_⟩
  · unfold CRAnsatz._layer
    rw [crAnsatz_layerGates_other h]
    rcases hrx : CRAnsatz.rxSection n addRz s with ⟨g0, s0⟩
    dsimp only
    have hbounds : g0.all (fun gate => gate.qubits.all (· < n)) = true := by
      rw [List.all_eq_true]
      intro g hg
      rw [List.all_eq_true]
      intro q hq
      have := crAnsatz_rxSection_bounds n addRz s
      rw [hrx] at this
      simpa using this g hg q hq
    rw [if_pos hbounds]
  · intro g hg
    rcases crAnsatz_rxSection_mem g hg with ⟨p, q, -, hc | hc⟩
    · exact Or.inl ⟨p, q, hc⟩
    · exact Or.inr ⟨p, q, hc⟩

/-- C10 witness at n = 3, add_rz = true, entanglement tag "full". -/
theorem claim_C10_witness :
    CRAnsatz._layer 3 (Entanglement.tag "full") true ⟨[]⟩ =
        .ok (CRAnsatz.rxSection 3 true ⟨[]⟩) ∧
    (CRAnsatz.rxSection 3 true ⟨[]⟩).1.countP PGate.isCr = 0 ∧
    ∀ g ∈ (CRAnsatz.rxSection 3 true ⟨[]⟩).1,
      (∃ p q, g = PGate.rx p q) ∨ (∃ p q, g = PGate.rz p q) :=
  claim_C10 3 true ⟨[]⟩ "full" (by decide)

/-! ## _param_idx lemmas and claims C9, C7 -/

theorem paramIdxLoop_none_iff (p : Parameter) :
    ∀ (l : List Parameter) (base : Nat),
      AnsatzBuilder.paramIdxLoop p l base = none ↔ p ∉ l := by
  intro l
  induction l with
  | nil => intro base; simp [AnsatzBuilder.paramIdxLoop]
  | cons q rest ih =>
    intro base
    unfold AnsatzBuilder.paramIdxLoop
    by_cases hq : q = p
    · subst hq
      simp
    · rw [if_neg hq]
      rw [ih (base + 1)]
      simp only [List.mem_cons]
      constructor
      · intro hnot hc
        rcases hc with hc | hc
        · exact hq hc.symm
        · exact hnot hc
      · intro hnot hc
        exact hnot (Or.inr hc)

theorem paramIdxLoop_some_spec (p : Parameter) :
    ∀ (l : List Parameter) (base r : Nat),
      AnsatzBuilder.paramIdxLoop p l base = some r →
      ∃ i, r = base + i ∧ l[i]? = some p ∧ ∀ j < i, l[j]? ≠ some p := by
  intro l
  induction l with
  | nil => intro base r h; simp [AnsatzBuilder.paramIdxLoop] at h
  | cons q rest ih =>
    intro base r h
    unfold AnsatzBuilder.paramIdxLoop at h
    by_cases hq : q = p
    · subst hq
      rw [if_pos rfl] at h
      injection h with hr
      exact ⟨0, by omega, by simp, by omega⟩
    · rw [if_neg hq] at h
      obtain ⟨i, hi, hat, hbef⟩ := ih (base + 1) r h
      refine ⟨i + 1, by omega, by simpa using hat, ?_⟩
      intro j hj
      cases j with
      | zero =>
        simp only [List.getElem?_cons_zero]
        intro hc
        injection hc with hc2
        exact hq hc2
      | succ j2 =>
        simp only [List.getElem?_cons_succ]
        exact hbef j2 (by omega)

theorem param_idx_ok_firstIdx {cp : List Parameter} {p : Parameter} {i : Nat}
    (h : AnsatzBuilder._param_idx cp p = .ok i) : firstIdxAt cp p i := by
  unfold AnsatzBuilder._param_idx at h
  cases hl : AnsatzBuilder.paramIdxLoop p cp 0 with
  | none => rw [hl] at h; exact Except.noConfusion h
  | some r =>
    rw [hl] at h
    injection h with hr
    subst hr
    obtain ⟨i2, hi2, hat, hbef⟩ := paramIdxLoop_some_spec p cp 0 r hl
    have : r = i2 := by omega
    subst this
    exact ⟨hat, hbef⟩

/-- C9: `_param_idx` returns the index of the parameter in the circuit's
parameter list when the parameter is present (the position where it sits,
with no earlier occurrence), and raises a ValueError exactly when it is
absent. -/
theorem claim_C9 (circParams : List Parameter) (p : Parameter) :
    (p ∈ circParams →
      ∃ i, AnsatzBuilder._param_idx circParams p = .ok i ∧
        circParams[i]? = some p ∧ ∀ j < i, circParams[j]? ≠ some p) ∧
    (p ∉ circParams →
      AnsatzBuilder._param_idx circParams p =
        .error ("ValueError: Parameter " ++ p.name ++ " not found.")) := by
  constructor
  · intro hmem
    unfold AnsatzBuilder._param_idx
    cases hl : AnsatzBuilder.paramIdxLoop p circParams 0 with
    | none =>
      exact absurd ((paramIdxLoop_none_iff p circParams 0).mp hl) (by simpa using hmem)
    | some r =>
      obtain ⟨i, hi, hat, hbef⟩ := paramIdxLoop_some_spec p circParams 0 r hl
      have : r = i := by omega
      subst this
      exact ⟨r, rfl, hat, hbef⟩
  · intro hnot
    unfold AnsatzBuilder._param_idx
    rw [(paramIdxLoop_none_iff p circParams 0).mpr hnot]

/-- C9 witness: lookup succeeds at index 1 for a present parameter, fails for
an absent one. -/
theorem claim_C9_witness :
    (∃ i, AnsatzBuilder._param_idx [⟨0, "a"⟩, ⟨1, "b"⟩] ⟨1, "b"⟩ = .ok i ∧
        [(⟨0, "a"⟩ : Parameter), ⟨1, "b"⟩][i]? = some ⟨1, "b"⟩ ∧
        ∀ j < i, [(⟨0, "a"⟩ : Parameter), ⟨1, "b"⟩][j]? ≠ some ⟨1, "b"⟩) ∧
    AnsatzBuilder._param_idx [⟨0, "a"⟩] ⟨2, "c"⟩ =
      .error ("ValueError: Parameter " ++ (⟨2, "c"⟩ : Parameter).name ++ " not found.") :=
  ⟨(claim_C9 [⟨0, "a"⟩, ⟨1, "b"⟩] ⟨1, "b"⟩).1 (by decide),
   (claim_C9 [⟨0, "a"⟩] ⟨2, "c"⟩).2 (by decide)⟩

/-- C7: whenever `add_rx_schedule` or `add_cr_schedule` records a
wrapper-config entry for a symbolic parameter, the dictionary key it stores
is that parameter's index in the circuit's parameter ordering at the moment
of recording (its first position in `circParams`), for every combination of
symbolic/numeric gate parameters. -/
theorem claim_C7 :
    (∀ (p : Parameter) (rest : List PValue) (cp : List Parameter) (cfg out : WrapperConfig),
      AnsatzBuilder.add_rx_schedule (PValue.sym p :: rest) cp cfg = .ok out →
      ∃ i, firstIdxAt cp p i ∧ out = dictSet cfg i (SinWrapperEntry p)) ∧
    (∀ (maxD : ℚ) (d a : Parameter) (rest : List PValue) (cp : List Parameter)
        (cfg out : WrapperConfig),
      AnsatzBuilder.add_cr_schedule maxD (PValue.sym d :: PValue.sym a :: rest) cp cfg = .ok out →
      ∃ i k, firstIdxAt cp d i ∧ firstIdxAt cp a k ∧
        out = dictSet (dictSet cfg i (SinDurationWrapperEntry maxD d)) k (SinWrapperEntry a)) ∧
    (∀ (maxD x : ℚ) (a : Parameter) (rest : List PValue) (cp : List Parameter)
        (cfg out : WrapperConfig),
      AnsatzBuilder.add_cr_schedule maxD (PValue.num x :: PValue.sym a :: rest) cp cfg = .ok out →
      ∃ k, firstIdxAt cp a k ∧ out = dictSet cfg k (SinWrapperEntry a)) ∧
    (∀ (maxD y : ℚ) (d : Parameter) (rest : List PValue) (cp : List Parameter)
        (cfg out : WrapperConfig),
      AnsatzBuilder.add_cr_schedule maxD (PValue.sym d :: PValue.num y :: rest) cp cfg = .ok out →
      ∃ i, firstIdxAt cp d i ∧ out = dictSet cfg i (SinDurationWrapperEntry maxD d)) := by
  refine ⟨?_, ?_, ?_, ?_⟩
  · intro p rest cp cfg out h
    unfold AnsatzBuilder.add_rx_schedule at h
    simp only [List.head?_cons] at h
    cases hidx : AnsatzBuilder._param_idx cp p with
    | error e => rw [hidx] at h; exact Except.noConfusion h
    | ok i =>
      rw [hidx] at h
      injection h with h2
      exact ⟨i, param_idx_ok_firstIdx hidx, h2.symm⟩
  · intro maxD d a rest cp cfg out h
    unfold AnsatzBuilder.add_cr_schedule at h
    simp only [List.getElem?_cons_zero, List.getElem?_cons_succ] at h
    cases hidx1 : AnsatzBuilder._param_idx cp d with
    | error e => rw [hidx1] at h; exact Except.noConfusion h
    | ok i =>
      rw [hidx1] at h
      cases hidx2 : AnsatzBuilder._param_idx cp a with
      | error e => rw [hidx2] at h; exact Except.noConfusion h
      | ok k =>
        rw [hidx2] at h
        injection h with h2
        exact ⟨i, k, param_idx_ok_firstIdx hidx1, param_idx_ok_firstIdx hidx2, h2.symm⟩
  · intro maxD x a rest cp cfg out h
    unfold AnsatzBuilder.add_cr_schedule at h
    simp only [List.getElem?_cons_zero, List.getElem?_cons_succ] at h
    cases hidx2 : AnsatzBuilder._param_idx cp a with
    | error e => rw [hidx2] at h; exact Except.noConfusion h
    | ok k =>
      rw [hidx2] at h
      injection h with h2
      exact ⟨k, param_idx_ok_firstIdx hidx2, h2.symm⟩
  · intro maxD y d rest cp cfg out h
    unfold AnsatzBuilder.add_cr_schedule at h
    simp only [List.getElem?_cons_zero, List.getElem?_cons_succ] at h
    cases hidx1 : AnsatzBuilder._param_idx cp d with
    | error e => rw [hidx1] at h; exact Except.noConfusion h
    | ok i =>
      rw [hidx1] at h
      injection h with h2
      exact ⟨i, param_idx_ok_firstIdx hidx1, h2.symm⟩

/-- C7 witness: recording a symbolic rx amplitude and a symbolic cr
duration/amplitude pair against the parameter ordering [t0, phi1]. -/
theorem claim_C7_witness :
    (∃ i, firstIdxAt [⟨5, "t0"⟩, ⟨7, "phi1"⟩] ⟨7, "phi1"⟩ i ∧
      dictSet [] 1 (SinWrapperEntry ⟨7, "phi1"⟩) =
        dictSet [] i (SinWrapperEntry ⟨7, "phi1"⟩)) ∧
    (∃ i k, firstIdxAt [⟨5, "t0"⟩, ⟨7, "phi1"⟩] ⟨5, "t0"⟩ i ∧
      firstIdxAt [⟨5, "t0"⟩, ⟨7, "phi1"⟩] ⟨7, "phi1"⟩ k ∧
      dictSet (dictSet [] 0 (SinDurationWrapperEntry 800 ⟨5, "t0"⟩)) 1
          (SinWrapperEntry ⟨7, "phi1"⟩) =
        dictSet (dictSet [] i (SinDurationWrapperEntry 800 ⟨5, "t0"⟩)) k
          (SinWrapperEntry ⟨7, "phi1"⟩)) :=
  ⟨claim_C7.1 ⟨7, "phi1"⟩ [] [⟨5, "t0"⟩, ⟨7, "phi1"⟩] []
      (dictSet [] 1 (SinWrapperEntry ⟨7, "phi1"⟩)) rfl,
   claim_C7.2.1 800 ⟨5, "t0"⟩ ⟨7, "phi1"⟩ [] [⟨5, "t0"⟩, ⟨7, "phi1"⟩] []
      (dictSet (dictSet [] 0 (SinDurationWrapperEntry 800 ⟨5, "t0"⟩)) 1
        (SinWrapperEntry ⟨7, "phi1"⟩)) rfl⟩

/-! ## Heisenberg model: claim C6 -/

theorem foldl_append_flatMap {α β : Type} (f : α → List β) :
    ∀ (l : List α) (init : List β),
      l.foldl (fun acc x => acc ++ f x) init = init ++ l.flatMap f := by
  intro l
  induction l with
  | nil => intro init; simp
  | cons a as ih =>
    intro init
    simp only [List.foldl_cons, List.flatMap_cons, ih]
    rw [List.append_assoc]

theorem specHam_length {α : Type} :
    ∀ edges : List (Nat × Nat × α),
      (HeisenbergModel.specHam edges).length =
        edges.countP (fun e => decide (e.1 = e.2.1)) +
          3 * edges.countP (fun e => ! decide (e.1 = e.2.1)) := by
  intro edges
  induction edges with
  | nil => rfl
  | cons e es ih =>
    rcases e with ⟨a, b, w⟩
    have hcons : HeisenbergModel.specHam ((a, b, w) :: es) =
        HeisenbergModel.specEdgeTerms (a, b, w) ++ HeisenbergModel.specHam es := by
      simp [HeisenbergModel.specHam]
    rw [hcons, List.length_append, ih, List.countP_cons, List.countP_cons]
    by_cases hab : a = b
    · subst hab
      simp [HeisenbergModel.specEdgeTerms]
      omega
    · simp only [HeisenbergModel.specEdgeTerms, if_neg hab]
      have hd : decide (a = b) = false := by simp [hab]
      simp only [hd, List.length_cons, List.length_nil, Bool.not_false, if_pos,
        if_neg, cond_true, cond_false]
      simp
      omega

/-- C6: `second_q_ops` maps each weighted edge exactly as the spec states —
a self-loop of weight w contributes the single term `X_i` with coefficient w,
an edge between distinct nodes contributes the three terms
`X_a X_b`, `Y_a Y_b`, `Z_a Z_b` with coefficient w, and nothing else is
produced (the ham list is exactly the concatenation of the per-edge terms,
so its length is #self-loops + 3 · #cross-edges). -/
theorem claim_C6 {α : Type} (lat : LatticeGraph α) :
    (HeisenbergModel.second_q_ops lat).ham =
      HeisenbergModel.specHam lat.weightedEdgeList ∧
    (HeisenbergModel.second_q_ops lat).registerLength = lat.numNodes ∧
    (HeisenbergModel.second_q_ops lat).ham.length =
      lat.weightedEdgeList.countP (fun e => decide (e.1 = e.2.1)) +
        3 * lat.weightedEdgeList.countP (fun e => ! decide (e.1 = e.2.1)) := by
  have hham : (HeisenbergModel.second_q_ops lat).ham =
      HeisenbergModel.specHam lat.weightedEdgeList := by
    unfold HeisenbergModel.second_q_ops
    dsimp only
    have hfun : (fun (ham : List (String × α)) (e : Nat × Nat × α) =>
        match e with
        | (node_a, node_b, weight) =>
          if node_a = node_b then
            ham ++ [("X_" ++ Nat.repr node_a, weight)]
          else
            ham ++ [("X_" ++ Nat.repr node_a ++ " X_" ++ Nat.repr node_b, weight),
                    ("Y_" ++ Nat.repr node_a ++ " Y_" ++ Nat.repr node_b, weight),
                    ("Z_" ++ Nat.repr node_a ++ " Z_" ++ Nat.repr node_b, weight)]) =
        fun acc e => acc ++ HeisenbergModel.specEdgeTerms e := by
      funext acc e
      rcases e with ⟨a, b, w⟩
      simp only [HeisenbergModel.specEdgeTerms]
      by_cases hab : a = b
      · subst hab
        rw [if_pos rfl, if_pos rfl]
      · rw [if_neg hab, if_neg hab]
    rw [hfun, foldl_append_flatMap]
    rfl
  exact ⟨hham, rfl, by rw [hham]; exact specHam_length lat.weightedEdgeList⟩

/-- C6 witness on the lattice with one self-loop (weight 5) and one cross
edge (weight 7). -/
theorem claim_C6_witness :
    (HeisenbergModel.second_q_ops (⟨2, [(0, 0, 5), (0, 1, 7)]⟩ : LatticeGraph Int)).ham =
      HeisenbergModel.specHam [(0, 0, 5), (0, 1, 7)] ∧
    (HeisenbergModel.second_q_ops (⟨2, [(0, 0, 5), (0, 1, 7)]⟩ : LatticeGraph Int)).registerLength = 2 ∧
    (HeisenbergModel.second_q_ops (⟨2, [(0, 0, 5), (0, 1, 7)]⟩ : LatticeGraph Int)).ham.length =
      [((0 : Nat), (0 : Nat), (5 : Int)), (0, 1, 7)].countP (fun e => decide (e.1 = e.2.1)) +
        3 * [((0 : Nat), (0 : Nat), (5 : Int)), (0, 1, 7)].countP
          (fun e => ! decide (e.1 = e.2.1)) :=
  claim_C6 ⟨2, [(0, 0, 5), (0, 1, 7)]⟩

/-! ## Decimal-name machinery for claim C8 -/

theorem toDigitsCore_succ (b fuel n : Nat) (ds : List Char) :
    Nat.toDigitsCore b (fuel + 1) n ds =
      if n / b = 0 then Nat.digitChar (n % b) :: ds
      else Nat.toDigitsCore b fuel (n / b) (Nat.digitChar (n % b) :: ds) := by
  conv_lhs => rw [Nat.toDigitsCore]

theorem toDigitsCore_zero (b n : Nat) (ds : List Char) :
    Nat.toDigitsCore b 0 n ds = ds := rfl

theorem digitChar_isDigit {m : Nat} (h : m < 10) : (Nat.digitChar m).isDigit = true := by
  interval_cases m <;> decide

theorem digitVal_digitChar {m : Nat} (h : m < 10) : digitVal (Nat.digitChar m) = m := by
  interval_cases m <;> decide

theorem toDigitsCore_spec :
    ∀ (fuel n : Nat) (acc : List Char), n < 10 ^ (fuel + 1) →
      ∃ L, Nat.toDigitsCore 10 (fuel + 1) n acc = L ++ acc ∧ L ≠ [] ∧
        (∀ c ∈ L, c.isDigit = true) ∧
        ∀ a0 : Nat, L.foldl (fun a c => 10 * a + digitVal c) a0 = a0 * 10 ^ L.length + n := by
  intro fuel
  induction fuel with
  | zero =>
    intro n acc hn
    rw [toDigitsCore_succ]
    have hdiv : n / 10 = 0 := by omega
    rw [if_pos hdiv]
    have hm : n % 10 = n := by omega
    refine ⟨[Nat.digitChar (n % 10)], rfl, by simp, ?_, ?_⟩
    · intro c hc
      simp only [List.mem_singleton] at hc
      subst hc
      exact digitChar_isDigit (by omega)
    · intro a0
      simp only [List.foldl_cons, List.foldl_nil, List.length_singleton, pow_one]
      rw [digitVal_digitChar (by omega), hm]
      ring
  | succ fuel ih =>
    intro n acc hn
    rw [toDigitsCore_succ]
    by_cases hdiv : n / 10 = 0
    · rw [if_pos hdiv]
      have hm : n % 10 = n := by omega
      refine ⟨[Nat.digitChar (n % 10)], rfl, by simp, ?_, ?_⟩
      · intro c hc
        simp only [List.mem_singleton] at hc
        subst hc
        exact digitChar_isDigit (by omega)
      · intro a0
        simp only [List.foldl_cons, List.foldl_nil, List.length_singleton, pow_one]
        rw [digitVal_digitChar (by omega), hm]
        ring
    · rw [if_neg hdiv]
      have hlt : n / 10 < 10 ^ (fuel + 1) := by
        have h10 : (10 : Nat) ^ (fuel + 2) = 10 ^ (fuel + 1) * 10 := by ring
        rw [h10] at hn
        exact Nat.div_lt_of_lt_mul (by omega)
      obtain ⟨L2, hL2, hne2, hdig2, hval2⟩ := ih (n / 10) (Nat.digitChar (n % 10) :: acc) hlt
      refine ⟨L2 ++ [Nat.digitChar (n % 10)], ?_, by simp, ?_, ?_⟩
      · rw [hL2, List.append_assoc, List.singleton_append]
      · intro c hc
        rcases List.mem_append.mp hc with h | h
        · exact hdig2 c h
        · simp only [List.mem_singleton] at h
          subst h
          exact digitChar_isDigit (by omega)
      · intro a0
        rw [List.foldl_append, hval2 a0]
        simp only [List.foldl_cons, List.foldl_nil, List.length_append,
          List.length_singleton]
        rw [digitVal_digitChar (by omega)]
        have hmod : 10 * (n / 10) + n % 10 = n := by omega
        have hpow : (10 : Nat) ^ (L2.length + 1) = 10 ^ L2.length * 10 := by ring
        rw [hpow]
        calc 10 * (a0 * 10 ^ L2.length + n / 10) + n % 10
            = a0 * 10 ^ L2.length * 10 + (10 * (n / 10) + n % 10) := by ring
          _ = a0 * (10 ^ L2.length * 10) + n := by rw [hmod]; ring

theorem repr_data_spec (n : Nat) :
    (Nat.repr n).data ≠ [] ∧ (∀ c ∈ (Nat.repr n).data, c.isDigit = true) ∧
      valOfDigits (Nat.repr n).data = n := by
  have hbig : n < 10 ^ (n + 1) := by
    calc n < 10 ^ n := Nat.lt_pow_self (by norm_num) n
      _ ≤ 10 ^ (n + 1) := Nat.pow_le_pow_right (by norm_num) (Nat.le_succ n)
  obtain ⟨L, hL, hne, hdig, hval⟩ := toDigitsCore_spec n n [] hbig
  have hdata : (Nat.repr n).data = L := by
    show (Nat.toDigits 10 n).asString.data = L
    have : Nat.toDigits 10 n = Nat.toDigitsCore 10 (n + 1) n [] := rfl
    rw [this, hL, List.append_nil]
    rfl
  rw [hdata]
  refine ⟨hne, hdig, ?_⟩
  have := hval 0
  simpa [valOfDigits] using this

theorem repr_inj {i j : Nat} (h : Nat.repr i = Nat.repr j) : i = j := by
  have hi := (repr_data_spec i).2.2
  have hj := (repr_data_spec j).2.2
  rw [← hi, ← hj, h]

theorem digit_head_cancel :
    ∀ (u v a b : List Char),
      (∀ c ∈ u, c.isDigit = true) → (∀ c ∈ v, c.isDigit = true) →
      (∀ c, a.head? = some c → c.isDigit = false) →
      (∀ c, b.head? = some c → c.isDigit = false) →
      u ++ a = v ++ b → u = v ∧ a = b := by
  intro u
  induction u with
  | nil =>
    intro v a b hu hv ha hb heq
    cases v with
    | nil => exact ⟨rfl, heq⟩
    | cons d v2 =>
      simp only [List.nil_append, List.cons_append] at heq
      subst heq
      have h1 : (d :: (v2 ++ b)).head? = some d := rfl
      have h2 := ha d h1
      have h3 := hv d (List.mem_cons_self d v2)
      rw [h3] at h2
      exact absurd h2 (by simp)
  | cons c u2 ih =>
    intro v a b hu hv ha hb heq
    cases v with
    | nil =>
      simp only [List.cons_append, List.nil_append] at heq
      subst heq
      have h1 : (c :: (u2 ++ a)).head? = some c := rfl
      have h2 := hb c h1
      have h3 := hu c (List.mem_cons_self c u2)
      rw [h3] at h2
      exact absurd h2 (by simp)
    | cons d v2 =>
      simp only [List.cons_append] at heq
      injection heq with hcd htail
      subst hcd
      obtain ⟨h1, h2⟩ := ih v2 a b
        (fun x hx => hu x (List.mem_cons_of_mem c hx))
        (fun x hx => hv x (List.mem_cons_of_mem c hx)) ha hb htail
      exact ⟨by rw [h1], h2⟩

theorem digit_suffix_cancel (A B x y : List Char)
    (hx : ∀ c ∈ x, c.isDigit = true) (hy : ∀ c ∈ y, c.isDigit = true)
    (hA : ∀ c, A.getLast? = some c → c.isDigit = false)
    (hB : ∀ c, B.getLast? = some c → c.isDigit = false)
    (h : A ++ x = B ++ y) : A = B ∧ x = y := by
  have hrev : x.reverse ++ A.reverse = y.reverse ++ B.reverse := by
    rw [← List.reverse_append, ← List.reverse_append, h]
  obtain ⟨h1, h2⟩ := digit_head_cancel x.reverse y.reverse A.reverse B.reverse
    (fun c hc => hx c (List.mem_reverse.mp hc))
    (fun c hc => hy c (List.mem_reverse.mp hc))
    (fun c hc => hA c (by rwa [List.head?_reverse] at hc))
    (fun c hc => hB c (by rwa [List.head?_reverse] at hc))
    hrev
  constructor
  · have := congrArg List.reverse h2
    simpa using this
  · have := congrArg List.reverse h1
    simpa using this

theorem digitSafe_getLast {A : String} (hA : digitSafe A = true) :
    ∀ c, A.data.getLast? = some c → c.isDigit = false := by
  intro c hc
  unfold digitSafe at hA
  rw [hc] at hA
  simpa using hA

theorem name_inj {A B : String} {i j : Nat} (hA : digitSafe A = true)
    (hB : digitSafe B = true) (h : A ++ Nat.repr i = B ++ Nat.repr j) :
    A = B ∧ i = j := by
  have hdata : A.data ++ (Nat.repr i).data = B.data ++ (Nat.repr j).data := by
    rw [← String.data_append, ← String.data_append, h]
  obtain ⟨h1, h2⟩ := digit_suffix_cancel A.data B.data (Nat.repr i).data (Nat.repr j).data
    ((repr_data_spec i).2.1) ((repr_data_spec j).2.1)
    (digitSafe_getLast hA) (digitSafe_getLast hB) hdata
  exact ⟨String.ext h1, repr_inj (String.ext h2)⟩

theorem genParams_cons (p : String) (ps : List String) (k : Nat) :
    genParams (p :: ps) k = ⟨k, p ++ Nat.repr k⟩ :: genParams ps (k + 1) := rfl

theorem runNewParams_eq :
    ∀ (ps : List String) (s : BuilderState),
      runNewParams ps s =
        (genParams ps s.params.length, ⟨s.params ++ genParams ps s.params.length⟩) := by
  intro ps
  induction ps with
  | nil =>
    intro s
    rcases s with ⟨l⟩
    simp [runNewParams, stateList, genParams, List.enumFrom]
  | cons p ps ih =>
    intro s
    have hstep : new_param p s =
        (⟨s.params.length, p ++ Nat.repr s.params.length⟩,
         ⟨s.params ++ [⟨s.params.length, p ++ Nat.repr s.params.length⟩]⟩) := rfl
    have hcons : runNewParams (p :: ps) s =
        ((new_param p s).1 :: (runNewParams ps (new_param p s).2).1,
         (runNewParams ps (new_param p s).2).2) := by
      unfold runNewParams
      rw [stateList_cons]
    rw [hcons, hstep]
    have hlen : (BuilderState.mk
        (s.params ++ [⟨s.params.length, p ++ Nat.repr s.params.length⟩])).params.length =
        s.params.length + 1 := by simp
    rw [ih]
    rw [hlen, genParams_cons]
    simp only [Prod.mk.injEq]
    simp

theorem mem_enumFrom_le {α : Type} :
    ∀ (l : List α) (k : Nat) (p : Nat × α), p ∈ List.enumFrom k l → k ≤ p.1 := by
  intro l
  induction l with
  | nil => intro k p hp; simp [List.enumFrom] at hp
  | cons a as ih =>
    intro k p hp
    rw [show List.enumFrom k (a :: as) = (k, a) :: List.enumFrom (k + 1) as from rfl] at hp
    rcases List.mem_cons.mp hp with rfl | hp
    · exact le_refl k
    · exact le_trans (Nat.le_succ k) (ih (k + 1) p hp)

theorem mem_enumFrom_snd {α : Type} :
    ∀ (l : List α) (k : Nat) (p : Nat × α), p ∈ List.enumFrom k l → p.2 ∈ l := by
  intro l
  induction l with
  | nil => intro k p hp; simp [List.enumFrom] at hp
  | cons a as ih =>
    intro k p hp
    rw [show List.enumFrom k (a :: as) = (k, a) :: List.enumFrom (k + 1) as from rfl] at hp
    rcases List.mem_cons.mp hp with rfl | hp
    · exact List.mem_cons_self a as
    · exact List.mem_cons_of_mem a (ih (k + 1) p hp)

theorem enumFrom_fst_lt {α : Type} :
    ∀ (l : List α) (k : Nat),
      List.Pairwise (fun a b => a.1 < b.1) (List.enumFrom k l) := by
  intro l
  induction l with
  | nil => intro k; simp [List.enumFrom]
  | cons a as ih =>
    intro k
    rw [show List.enumFrom k (a :: as) = (k, a) :: List.enumFrom (k + 1) as from rfl]
    refine List.Pairwise.cons ?_ (ih (k + 1))
    intro p hp
    exact lt_of_lt_of_le (Nat.lt_succ_self k) (mem_enumFrom_le as (k + 1) p hp)

theorem names_nodup_aux :
    ∀ l : List (Nat × String),
      (∀ ip ∈ l, digitSafe ip.2 = true) →
      List.Pairwise (fun a b => a.1 ≠ b.1) l →
      (l.map (fun ip => ip.2 ++ Nat.repr ip.1)).Nodup := by
  intro l
  induction l with
  | nil => intro _ _; simp
  | cons ip l ih =>
    intro hsafe hpw
    rw [List.map_cons, List.nodup_cons]
    obtain ⟨hhead, htail⟩ := List.pairwise_cons.mp hpw
    constructor
    · intro hmem
      obtain ⟨jp, hjp, hname⟩ := List.mem_map.mp hmem
      obtain ⟨-, hidx⟩ := name_inj (hsafe jp (List.mem_cons_of_mem ip hjp))
        (hsafe ip (List.mem_cons_self ip l)) hname
      exact hhead jp hjp hidx.symm
    · exact ih (fun jp hjp => hsafe jp (List.mem_cons_of_mem ip hjp)) htail

/-! ## Claim theorems: C8 -/

/-- C8, counterexample: one builder instance, eleven `new_param` calls with
paramstr arguments "p1", "a" (nine times), "p".  The first call creates the
name "p10" (paramstr "p1" + count 0) and the eleventh call creates "p10"
again (paramstr "p" + count 10): names generated by `new_param` are NOT
always pairwise distinct. -/
theorem claim_C8_counterexample :
    namesOf ["p1", "a", "a", "a", "a", "a", "a", "a", "a", "a", "p"] =
      ["p10", "a1", "a2", "a3", "a4", "a5", "a6", "a7", "a8", "a9", "p10"] ∧
    ¬ (namesOf ["p1", "a", "a", "a", "a", "a", "a", "a", "a", "a", "p"]).Nodup := by
  decide

/-- C8, amended: for a single builder instance, each generated name is the
given paramstr concatenated with the zero-based count of parameters created
before it (so names reflect creation order), and the names are pairwise
distinct provided every paramstr used does not end in a decimal digit — as
holds for every paramstr the repository passes ('phi', 'gamma', 'p', 't').
In general distinctness can fail (see the counterexample). -/
theorem claim_C8 (paramstrs : List String)
    (hsafe : ∀ ps ∈ paramstrs, digitSafe ps = true) :
    (runNewParams paramstrs ⟨[]⟩).1 = genParams paramstrs 0 ∧
    (runNewParams paramstrs ⟨[]⟩).2.params = genParams paramstrs 0 ∧
    (namesOf paramstrs).Nodup := by
  have hrun := runNewParams_eq paramstrs ⟨[]⟩
  have hlen : (BuilderState.mk []).params.length = 0 := rfl
  rw [hlen] at hrun
  refine ⟨by rw [hrun], by rw [hrun]; simp, ?_⟩
  have hnames : namesOf paramstrs =
      (List.enumFrom 0 paramstrs).map (fun ip => ip.2 ++ Nat.repr ip.1) := by
    unfold namesOf
    rw [hrun]
    simp only [genParams, List.map_map]
    rfl
  rw [hnames]
  refine names_nodup_aux (List.enumFrom 0 paramstrs) ?_ ?_
  · intro ip hip
    exact hsafe ip.2 (mem_enumFrom_snd paramstrs 0 ip hip)
  · exact (enumFrom_fst_lt paramstrs 0).imp (fun h => Nat.ne_of_lt h)

/-- C8 witness: the four paramstrs the repository uses. -/
theorem claim_C8_witness :
    (runNewParams ["phi", "gamma", "p", "t"] ⟨[]⟩).1 =
        genParams ["phi", "gamma", "p", "t"] 0 ∧
    (runNewParams ["phi", "gamma", "p", "t"] ⟨[]⟩).2.params =
        genParams ["phi", "gamma", "p", "t"] 0 ∧
    (namesOf ["phi", "gamma", "p", "t"]).Nodup :=
  claim_C8 ["phi", "gamma", "p", "t"] (by decide)
